import Mathlib

/-!
Verification of the score-driven sample-selection and table-aggregation logic
of the AudioProcessingTools repository.

The embedding below translates, function by function, the Python code of
`audioprocessing/selection.py`, `audioprocessing/io_utils.py` and
`audioprocessing/similarity.py` into executable Lean definitions.  Python
floats (values obtained by the `float(...)` parses in the code) are modelled
as rationals; a table cell that `float(...)` rejects is modelled as `none`.
Python's stable `sorted` is modelled by Mathlib's stable `List.insertionSort`
(any two stable sorts for the same total preorder agree).
-/

namespace AudioProc

/-! ## BudgetSelector: `filter_and_save_csv_by_score_and_duration`
(`audioprocessing/selection.py`, lines 126-247)

A CSV row, after the two numeric parses the function performs, is its key
together with the parsed value of the score column and the parsed value of
the duration column; `none` records that `float(...)` raised on the cell. -/

structure Row where
  key : String
  score : Option ℚ
  dur : Option ℚ
deriving DecidableEq

/-- Sort key from `sort_key` (selection.py lines 193-198): the parsed score,
with an unparsable score mapped to `float('-inf')` when sorting descending
and to `float('inf')` when sorting ascending.  `WithBot (WithTop ℚ)`
provides both infinities. -/
def sortKeyVal (descending : Bool) (s : Option ℚ) : WithBot (WithTop ℚ) :=
  match s with
  | some q => ((q : WithTop ℚ) : WithBot (WithTop ℚ))
  | none => if descending then ⊥ else ((⊤ : WithTop ℚ) : WithBot (WithTop ℚ))

/-- The ordering used by `sorted(all_rows, key=sort_key, reverse=sort_descending)`
(selection.py line 204): `rowLE descending a b` holds when `a` may be placed
before `b` in the output.  With `reverse=True` CPython produces the stable
descending order, so `a` comes before `b` when its key is ≥; with
`reverse=False`, when its key is ≤. -/
def rowLE : Bool → Row → Row → Prop
  | true, a, b => sortKeyVal true b.score ≤ sortKeyVal true a.score
  | false, a, b => sortKeyVal false a.score ≤ sortKeyVal false b.score

instance rowLE.instDecidableRel (d : Bool) : DecidableRel (rowLE d) :=
  fun a b =>
    match d with
    | true => inferInstanceAs (Decidable (sortKeyVal true b.score ≤ sortKeyVal true a.score))
    | false => inferInstanceAs (Decidable (sortKeyVal false a.score ≤ sortKeyVal false b.score))

/-- `sorted_rows = sorted(all_rows, key=sort_key, reverse=sort_descending)`
(selection.py line 204), modelled by the stable insertion sort. -/
def sortRows (descending : Bool) (rows : List Row) : List Row :=
  List.insertionSort (rowLE descending) rows

/-- The selection loop of selection.py lines 211-223: walk the sorted rows,
skip a row whose duration cell does not parse, and append a row when
`size_threshold_ms == 0 or (total_duration_ms + current_duration <= size_threshold_ms)`,
accumulating `total_duration_ms += current_duration`. -/
def selectGreedy (budget : ℚ) : List Row → ℚ → List Row
  | [], _ => []
  | r :: rs, total =>
    match r.dur with
    | none => selectGreedy budget rs total
    | some d =>
      if budget = 0 ∨ total + d ≤ budget then r :: selectGreedy budget rs (total + d)
      else selectGreedy budget rs total

/-- `BudgetSelector.select`: sort by score, then greedily select under the
cumulative duration budget (selection.py lines 200-223). -/
def select (budget : ℚ) (descending : Bool) (rows : List Row) : List Row :=
  selectGreedy budget (sortRows descending rows) 0

/-- Total of the parsed durations of a list of rows. -/
def sumDur (rows : List Row) : ℚ :=
  (rows.map (fun r => r.dur.getD 0)).sum

/-! ### Basic lemmas about the selection loop -/

lemma sumDur_nil : sumDur [] = 0 := rfl

lemma sumDur_cons (r : Row) (rs : List Row) :
    sumDur (r :: rs) = r.dur.getD 0 + sumDur rs := by
  simp [sumDur]

lemma selectGreedy_nil (budget : ℚ) (total : ℚ) :
    selectGreedy budget [] total = [] := rfl

lemma selectGreedy_cons_none (budget : ℚ) (r : Row) (rs : List Row) (total : ℚ)
    (h : r.dur = none) :
    selectGreedy budget (r :: rs) total = selectGreedy budget rs total := by
  simp [selectGreedy, h]

lemma selectGreedy_cons_fit (budget : ℚ) (r : Row) (rs : List Row) (total d : ℚ)
    (h : r.dur = some d) (hfit : budget = 0 ∨ total + d ≤ budget) :
    selectGreedy budget (r :: rs) total = r :: selectGreedy budget rs (total + d) := by
  simp [selectGreedy, h, hfit]

lemma selectGreedy_cons_nofit (budget : ℚ) (r : Row) (rs : List Row) (total d : ℚ)
    (h : r.dur = some d) (hfit : ¬(budget = 0 ∨ total + d ≤ budget)) :
    selectGreedy budget (r :: rs) total = selectGreedy budget rs total := by
  simp only [selectGreedy, h]
  rw [if_neg hfit]

/-- Invariant of the greedy loop: with a nonzero budget, starting from a
running total within budget, the loop never lets the total exceed it. -/
lemma selectGreedy_sum_le (budget : ℚ) (hb : budget ≠ 0) :
    ∀ (l : List Row) (total : ℚ), total ≤ budget →
      total + sumDur (selectGreedy budget l total) ≤ budget := by
  intro l
  induction l with
  | nil => intro total ht; simpa [selectGreedy_nil, sumDur_nil] using ht
  | cons r rs ih =>
    intro total ht
    cases hdur : r.dur with
    | none => rw [selectGreedy_cons_none _ _ _ _ hdur]; exact ih total ht
    | some d =>
      by_cases hfit : budget = 0 ∨ total + d ≤ budget
      · have hle : total + d ≤ budget := hfit.resolve_left hb
        rw [selectGreedy_cons_fit _ _ _ _ _ hdur hfit, sumDur_cons, hdur]
        have := ih (total + d) hle
        simpa [add_assoc] using this
      · rw [selectGreedy_cons_nofit _ _ _ _ _ hdur hfit]; exact ih total ht

/-- With budget 0, the loop keeps exactly the rows whose duration parses. -/
lemma selectGreedy_zero (l : List Row) (total : ℚ) :
    selectGreedy 0 l total = l.filter (fun r => r.dur.isSome) := by
  induction l generalizing total with
  | nil => rfl
  | cons r rs ih =>
    cases hdur : r.dur with
    | none =>
      rw [selectGreedy_cons_none _ _ _ _ hdur]
      simp [List.filter, hdur, ih]
    | some d =>
      rw [selectGreedy_cons_fit _ _ _ _ _ hdur (Or.inl rfl)]
      simp [List.filter, hdur, ih]

/-! ### Order lemmas for the sort relation -/

lemma rowLE_total (d : Bool) : ∀ a b : Row, rowLE d a b ∨ rowLE d b a := by
  intro a b
  cases d with
  | true => exact (le_total (sortKeyVal true b.score) (sortKeyVal true a.score)).imp id id
  | false => exact (le_total (sortKeyVal false a.score) (sortKeyVal false b.score)).imp id id

lemma rowLE_trans (d : Bool) :
    ∀ a b c : Row, rowLE d a b → rowLE d b c → rowLE d a c := by
  intro a b c hab hbc
  cases d with
  | true => exact le_trans hbc hab
  | false => exact le_trans hab hbc

/-- A row placed (weakly) before another by the sort relation cannot have an
unparsable score unless the later row has one too: unparsable scores are at
the bottom for `descending = true` and at the top for `descending = false`. -/
lemma sortKeyVal_none_true : sortKeyVal true none = ⊥ := rfl

lemma sortKeyVal_none_false :
    sortKeyVal false none = ((⊤ : WithTop ℚ) : WithBot (WithTop ℚ)) := rfl

lemma sortKeyVal_some (d : Bool) (q : ℚ) :
    sortKeyVal d (some q) = ((q : WithTop ℚ) : WithBot (WithTop ℚ)) := rfl

lemma rowLE_none_imp (d : Bool) (a b : Row) (h : rowLE d a b)
    (ha : a.score = none) : b.score = none := by
  cases d with
  | true =>
    cases hb : b.score with
    | none => rfl
    | some q =>
      exfalso
      have h' : sortKeyVal true (some q) ≤ sortKeyVal true none := by
        rw [← ha, ← hb]; exact h
      rw [sortKeyVal_none_true, sortKeyVal_some] at h'
      exact (WithBot.coe_ne_bot (le_bot_iff.mp h'))
  | false =>
    cases hb : b.score with
    | none => rfl
    | some q =>
      exfalso
      have h' : sortKeyVal false none ≤ sortKeyVal false (some q) := by
        rw [← ha, ← hb]; exact h
      rw [sortKeyVal_none_false, sortKeyVal_some] at h'
      have h'' : (⊤ : WithTop ℚ) ≤ (q : WithTop ℚ) := WithBot.coe_le_coe.mp h'
      exact (WithTop.coe_ne_top (top_le_iff.mp h'')).elim

/-! ## Claim theorems for BudgetSelector -/

/-- C1: for every input table with at least one parseable duration and every
positive budget, the total parsed duration of the rows selected by
`filter_and_save_csv_by_score_and_duration` is at most the budget. -/
theorem select_total_duration_le_budget
    (rows : List Row) (descending : Bool) (budget : ℚ)
    (hb : 0 < budget) (_hrow : ∃ r ∈ rows, r.dur.isSome) :
    sumDur (select budget descending rows) ≤ budget := by
  have h := selectGreedy_sum_le budget (ne_of_gt hb) (sortRows descending rows) 0 (le_of_lt hb)
  simpa [select] using h

theorem select_total_duration_le_budget_witness :
    (0:ℚ) < 600000 ∧ (∃ r ∈ [Row.mk "a" (some 4) (some 300000)], r.dur.isSome) ∧
      sumDur (select 600000 true [Row.mk "a" (some 4) (some 300000)]) ≤ 600000 :=
  ⟨by decide, by decide,
    select_total_duration_le_budget [Row.mk "a" (some 4) (some 300000)] true 600000
      (by decide) (by decide)⟩

/-- C2: with budget 0 (meaning unlimited), `select` returns exactly the rows
whose duration parses, in the score-sorted order. -/
theorem select_budget_zero_returns_all_parseable
    (rows : List Row) (descending : Bool) :
    select 0 descending rows = (sortRows descending rows).filter (fun r => r.dur.isSome) := by
  simpa [select] using selectGreedy_zero (sortRows descending rows) 0

/-- C3: the per-row greedy scan on the spec's scenario table: with rows
x (score 4.0, duration 300000), y (score 5.0, duration 400000),
z (score 3.0, duration 100000), budget 600000 and descending sort, the
sorted order is y, x, z; y fits, x does not fit the remaining budget and is
excluded without stopping the scan, and z, which still fits against the
running total, is then added: the output is [y, z] with total duration
500000. -/
theorem select_greedy_scan_scenario :
    select 600000 true
        [Row.mk "x" (some 4) (some 300000), Row.mk "y" (some 5) (some 400000),
          Row.mk "z" (some 3) (some 100000)] =
      [Row.mk "y" (some 5) (some 400000), Row.mk "z" (some 3) (some 100000)] ∧
    sumDur (select 600000 true
        [Row.mk "x" (some 4) (some 300000), Row.mk "y" (some 5) (some 400000),
          Row.mk "z" (some 3) (some 100000)]) = 500000 := by
  have hsort : sortRows true
      [Row.mk "x" (some 4) (some 300000), Row.mk "y" (some 5) (some 400000),
        Row.mk "z" (some 3) (some 100000)] =
      [Row.mk "y" (some 5) (some 400000), Row.mk "x" (some 4) (some 300000),
        Row.mk "z" (some 3) (some 100000)] := by decide
  have hsel : select 600000 true
      [Row.mk "x" (some 4) (some 300000), Row.mk "y" (some 5) (some 400000),
        Row.mk "z" (some 3) (some 100000)] =
      [Row.mk "y" (some 5) (some 400000), Row.mk "z" (some 3) (some 100000)] := by
    rw [select, hsort]
    rw [selectGreedy_cons_fit _ _ _ _ 400000 rfl (by norm_num)]
    rw [selectGreedy_cons_nofit _ _ _ _ 300000 rfl (by norm_num)]
    rw [selectGreedy_cons_fit _ _ _ _ 100000 rfl (by norm_num)]
    rfl
  refine ⟨hsel, ?_⟩
  rw [hsel]
  norm_num [sumDur]

/-- C4: for every table and both sort directions, every row with an
unparsable score is placed after all rows with parseable scores: along the
sorted output, once a row's score is `none`, every later row's score is
`none` as well. -/
theorem sortRows_unparsable_scores_last (rows : List Row) (descending : Bool) :
    (sortRows descending rows).Pairwise (fun a b => a.score = none → b.score = none) := by
  haveI : IsTotal Row (rowLE descending) := ⟨rowLE_total descending⟩
  haveI : IsTrans Row (rowLE descending) := ⟨rowLE_trans descending⟩
  have hs : (sortRows descending rows).Pairwise (rowLE descending) :=
    List.sorted_insertionSort (rowLE descending) rows
  exact hs.imp (fun h ha => rowLE_none_imp descending _ _ h ha)

/-! ## TableJoiner: `join_csv_files_on_key` (`audioprocessing/io_utils.py`,
lines 211-307)

A table's data rows are lists of cell strings; the key column is addressed
by its index in the header (`key1_idx`, `key2_idx` in the code).  The columns
kept from a `table_b` row are
`[r for i, r in enumerate(row2) if i != key2_idx]` (line 271). -/

/-- `row[k]`, the key cell of a row (out-of-range reads give `""`). -/
def rowKey (k : Nat) (row : List String) : String := row.getD k ""

/-- `[r for i, r in enumerate(row) if i != k]`: drop the cell at index `k`. -/
def removeIdx : Nat → List String → List String
  | _, [] => []
  | 0, _ :: xs => xs
  | n + 1, x :: xs => x :: removeIdx n xs

/-- Lookup in the model of the Python dict `data2_dict`: the value stored
under the first entry whose key equals `k`. -/
def dictGet (d : List (String × List String)) (k : String) : Option (List String) :=
  (d.find? (fun e => e.1 == k)).map (fun e => e.2)

/-- One iteration of the dict-building loop (io_utils.py lines 265-271):
`if key_val not in data2_dict: data2_dict[key_val] = ...` — an entry is added
only when the key is not yet present, so the first occurrence wins. -/
def dictInsert (d : List (String × List String)) (k : String) (v : List String) :
    List (String × List String) :=
  if d.any (fun e => e.1 == k) then d else d ++ [(k, v)]

/-- The lookup dict built from `table_b`'s rows, in order. -/
def buildDict (k2 : Nat) (data2 : List (List String)) : List (String × List String) :=
  data2.foldl (fun d r => dictInsert d (rowKey k2 r) (removeIdx k2 r)) []

/-- The join loop (io_utils.py lines 277-284): for each `row1` of `table_a`
in order, if its key is in the dict, emit `row1` extended with the stored
non-key columns; otherwise drop the row. -/
def joinRows (k1 : Nat) (d : List (String × List String)) :
    List (List String) → List (List String)
  | [] => []
  | a :: rest =>
    match dictGet d (rowKey k1 a) with
    | some v => (a ++ v) :: joinRows k1 d rest
    | none => joinRows k1 d rest

/-- `TableJoiner.join` on data rows: build the first-wins lookup from
`table_b`, then scan `table_a`. -/
def joinTables (k1 k2 : Nat) (data1 data2 : List (List String)) : List (List String) :=
  joinRows k1 (buildDict k2 data2) data1

/-! ### Lemmas about the dict and the join loop -/

lemma dictGet_append (d e : List (String × List String)) (k : String) :
    dictGet (d ++ e) k = (dictGet d k).or (dictGet e k) := by
  simp only [dictGet, List.find?_append]
  cases List.find? (fun e => e.1 == k) d <;> simp

/-- The dict built by the loop answers every lookup with the first `table_b`
row carrying that key. -/
lemma dictGet_buildDict (k2 : Nat) (data2 : List (List String)) (k : String) :
    dictGet (buildDict k2 data2) k =
      (data2.find? (fun r => rowKey k2 r == k)).map (removeIdx k2) := by
  suffices h : ∀ (l : List (List String)) (d : List (String × List String)),
      dictGet (l.foldl (fun d r => dictInsert d (rowKey k2 r) (removeIdx k2 r)) d) k =
        (dictGet d k).or ((l.find? (fun r => rowKey k2 r == k)).map (removeIdx k2)) by
    have := h data2 []
    simpa [buildDict, dictGet] using this
  intro l
  induction l with
  | nil => intro d; simp
  | cons r rs ih =>
    intro d
    rw [List.foldl_cons, ih]
    by_cases hk : rowKey k2 r == k
    · rw [@List.find?_cons_of_pos _ (fun r => rowKey k2 r == k) r rs hk]
      by_cases hmem : d.any (fun e => e.1 == k)
      · have hsome : (dictGet d k).isSome := by
          rcases List.any_eq_true.mp hmem with ⟨e, he, hek⟩
          have hf : (List.find? (fun e => e.1 == k) d).isSome :=
            List.find?_isSome.mpr ⟨e, he, hek⟩
          rcases Option.isSome_iff_exists.mp hf with ⟨x, hx⟩
          simp [dictGet, hx]
        have hins : dictInsert d (rowKey k2 r) (removeIdx k2 r) = d := by
          rw [dictInsert, if_pos]
          rcases List.any_eq_true.mp hmem with ⟨e, he, hek⟩
          refine List.any_eq_true.mpr ⟨e, he, ?_⟩
          rw [beq_iff_eq] at hek hk ⊢
          rw [hek, hk]
        rw [hins]
        rcases Option.isSome_iff_exists.mp hsome with ⟨v, hv⟩
        rw [hv]
        simp
      · have hnone : dictGet d k = none := by
          rw [dictGet]
          have : List.find? (fun e => e.1 == k) d = none := by
            rw [List.find?_eq_none]
            intro e he
            intro hek
            exact hmem (List.any_eq_true.mpr ⟨e, he, hek⟩)
          rw [this]; rfl
        have hins : dictInsert d (rowKey k2 r) (removeIdx k2 r) =
            d ++ [(rowKey k2 r, removeIdx k2 r)] := by
          rw [dictInsert, if_neg]
          intro hany
          rcases List.any_eq_true.mp hany with ⟨e, he, hek⟩
          apply hmem
          refine List.any_eq_true.mpr ⟨e, he, ?_⟩
          rw [beq_iff_eq] at hek hk ⊢
          rw [hek, hk]
        rw [hins, dictGet_append, hnone]
        simp [dictGet, hk]
    · rw [@List.find?_cons_of_neg _ (fun r => rowKey k2 r == k) r rs hk]
      have hins : dictGet (dictInsert d (rowKey k2 r) (removeIdx k2 r)) k = dictGet d k := by
        rw [dictInsert]
        by_cases hany : d.any (fun e => e.1 == rowKey k2 r)
        · rw [if_pos hany]
        · rw [if_neg hany, dictGet_append]
          have : dictGet [(rowKey k2 r, removeIdx k2 r)] k = none := by
            simp [dictGet, hk]
          rw [this, Option.or_none]
      rw [hins]

lemma joinRows_length (k1 : Nat) (d : List (String × List String))
    (l : List (List String)) :
    (joinRows k1 d l).length =
      l.countP (fun a => (dictGet d (rowKey k1 a)).isSome) := by
  induction l with
  | nil => rfl
  | cons a rest ih =>
    rw [joinRows]
    cases hv : dictGet d (rowKey k1 a) with
    | some v => simp [List.countP_cons, ih, hv]
    | none => simp [List.countP_cons, ih, hv]

lemma mem_joinRows (k1 : Nat) (d : List (String × List String))
    (l : List (List String)) (row : List String) (h : row ∈ joinRows k1 d l) :
    ∃ a ∈ l, ∃ v, dictGet d (rowKey k1 a) = some v ∧ row = a ++ v := by
  induction l with
  | nil => cases h
  | cons a rest ih =>
    rw [joinRows] at h
    cases hv : dictGet d (rowKey k1 a) with
    | some v =>
      rw [hv] at h
      rcases List.mem_cons.mp h with hrow | hrow
      · exact ⟨a, List.mem_cons_self a rest, v, hv, hrow⟩
      · rcases ih hrow with ⟨a', ha', v', hv', hrow'⟩
        exact ⟨a', List.mem_cons_of_mem _ ha', v', hv', hrow'⟩
    | none =>
      rw [hv] at h
      rcases ih h with ⟨a', ha', v', hv', hrow'⟩
      exact ⟨a', List.mem_cons_of_mem _ ha', v', hv', hrow'⟩

lemma joinRows_eq_filter_map (k1 : Nat) (d : List (String × List String)) :
    ∀ l : List (List String),
      joinRows k1 d l =
        (l.filter (fun a => (dictGet d (rowKey k1 a)).isSome)).map
          (fun a => a ++ (dictGet d (rowKey k1 a)).getD []) := by
  intro l
  induction l with
  | nil => rfl
  | cons a rest ih =>
    rw [joinRows]
    cases hv : dictGet d (rowKey k1 a) with
    | some v => simp [List.filter_cons, hv, ih]
    | none => simp [List.filter_cons, hv, ih]

/-! ## Claim theorems for TableJoiner -/

/-- C6: when `table_b` holds several rows with the same key, every joined
output row is built from the first `table_b` row bearing its key — the
non-key columns appended to a matching `table_a` row are those of the
earliest occurrence, and later duplicates never contribute. -/
theorem join_first_duplicate_wins
    (k1 k2 : Nat) (data1 data2 : List (List String)) (row : List String)
    (h : row ∈ joinTables k1 k2 data1 data2) :
    ∃ a ∈ data1, ∃ b, data2.find? (fun r => rowKey k2 r == rowKey k1 a) = some b ∧
      row = a ++ removeIdx k2 b := by
  rcases mem_joinRows k1 _ data1 row h with ⟨a, ha, v, hv, hrow⟩
  rw [dictGet_buildDict] at hv
  rcases Option.map_eq_some'.mp hv with ⟨b, hb, hvb⟩
  refine ⟨a, ha, b, hb, ?_⟩
  rw [hrow, hvb]

theorem join_first_duplicate_wins_witness :
    ["k", "a1", "b1"] ∈ joinTables 0 0 [["k", "a1"]] [["k", "b1"], ["k", "b2"]] ∧
    ∃ a ∈ [["k", "a1"]], ∃ b,
      [["k", "b1"], ["k", "b2"]].find? (fun r => rowKey 0 r == rowKey 0 a) = some b ∧
      ["k", "a1", "b1"] = a ++ removeIdx 0 b :=
  ⟨by decide,
    join_first_duplicate_wins 0 0 [["k", "a1"]] [["k", "b1"], ["k", "b2"]]
      ["k", "a1", "b1"] (by decide)⟩

/-- C7: the join emits exactly the `table_a` rows whose key occurs among
`table_b`'s keys; with unique keys on both sides, the number of output data
rows is the cardinality of the intersection of the two key sets. -/
theorem join_count_eq_card_key_inter
    (k1 k2 : Nat) (data1 data2 : List (List String))
    (hA : (data1.map (rowKey k1)).Nodup) (_hB : (data2.map (rowKey k2)).Nodup) :
    (joinTables k1 k2 data1 data2).length =
      ((data1.map (rowKey k1)).toFinset ∩ (data2.map (rowKey k2)).toFinset).card := by
  rw [joinTables, joinRows_length]
  have hpred : ∀ a ∈ data1,
      ((dictGet (buildDict k2 data2) (rowKey k1 a)).isSome) =
        decide (rowKey k1 a ∈ data2.map (rowKey k2)) := by
    intro a _
    rw [dictGet_buildDict]
    rcases hfind : data2.find? (fun r => rowKey k2 r == rowKey k1 a) with _ | b
    · simp only [Option.map_none', Option.isSome_none]
      symm
      rw [decide_eq_false_iff_not]
      intro hmem
      rcases List.mem_map.mp hmem with ⟨b, hb, hkb⟩
      have hs : (data2.find? (fun r => rowKey k2 r == rowKey k1 a)).isSome :=
        List.find?_isSome.mpr ⟨b, hb, by rw [beq_iff_eq]; exact hkb⟩
      rw [hfind] at hs
      cases hs
    · simp only [Option.map_some', Option.isSome_some]
      symm
      rw [decide_eq_true_eq]
      have hpb := @List.find?_some _ (fun r => rowKey k2 r == rowKey k1 a) b data2 hfind
      exact List.mem_map.mpr
        ⟨b, List.mem_of_find?_eq_some hfind, beq_iff_eq.mp hpb⟩
  rw [List.countP_congr (fun a ha => by rw [hpred a ha])]
  have h2 : data1.countP (fun a => decide (rowKey k1 a ∈ data2.map (rowKey k2)))
      = (data1.map (rowKey k1)).countP (fun x => decide (x ∈ data2.map (rowKey k2))) := by
    rw [List.countP_map]
    rfl
  rw [h2, List.countP_eq_length_filter]
  have h3 := List.toFinset_card_of_nodup
    (hA.filter (fun x => decide (x ∈ data2.map (rowKey k2))))
  rw [← h3]
  congr 1
  ext x
  simp only [List.toFinset_filter, Finset.mem_filter, Finset.mem_inter,
    List.mem_toFinset, decide_eq_true_eq]

theorem join_count_eq_card_key_inter_witness :
    ([["a", "1"], ["b", "2"]].map (rowKey 0)).Nodup ∧
    ([["a", "9"], ["c", "8"]].map (rowKey 0)).Nodup ∧
    (joinTables 0 0 [["a", "1"], ["b", "2"]] [["a", "9"], ["c", "8"]]).length =
      (([["a", "1"], ["b", "2"]].map (rowKey 0)).toFinset ∩
        ([["a", "9"], ["c", "8"]].map (rowKey 0)).toFinset).card :=
  ⟨by decide, by decide,
    join_count_eq_card_key_inter 0 0 [["a", "1"], ["b", "2"]] [["a", "9"], ["c", "8"]]
      (by decide) (by decide)⟩

/-- C10: the join scans `table_a` sequentially and appends each match
immediately, so its output is the order-preserving image of the matching
subsequence of `table_a`: it equals the map, over the sublist of `table_a`
rows whose key is in the lookup, of the row extended with its looked-up
columns — hence output rows appear in exactly the relative order of their
originating `table_a` rows. -/
theorem join_preserves_table_a_order
    (k1 k2 : Nat) (data1 data2 : List (List String)) :
    joinTables k1 k2 data1 data2 =
      (data1.filter (fun a => (dictGet (buildDict k2 data2) (rowKey k1 a)).isSome)).map
        (fun a => a ++ (dictGet (buildDict k2 data2) (rowKey k1 a)).getD []) ∧
    List.Sublist
      (data1.filter (fun a => (dictGet (buildDict k2 data2) (rowKey k1 a)).isSome))
      data1 :=
  ⟨joinRows_eq_filter_map k1 (buildDict k2 data2) data1, List.filter_sublist data1⟩

/-! ## Reference-resolution heuristic
(`audioprocessing/similarity.py` lines 376-385 and
`utils/resemblyzer_inference_with_different_speakers.py` lines 70-75)

The Python code is
```
speaker_underscore = speaker + "_"
if speaker_underscore in cloned_wav_filename:
    sample_raw_name = cloned_wav_filename.split(speaker_underscore)[-1]
else:
    sample_raw_name = cloned_wav_filename
sample_raw_name = sample_raw_name.split("_synthesis")[0] + ".wav"
```
Filenames are modelled as `List Char`.  `str.split(sep)` for a nonempty
separator scans left to right and cuts at each non-overlapping occurrence. -/

/-- Python `s.split(c0 :: sepT)`, with `acc` holding the current field in
reverse: at each position, if the separator starts here, close the field and
resume after the separator; otherwise shift one character. -/
def pySplitGo (c0 : Char) (sepT : List Char) : List Char → List Char → List (List Char)
  | [], acc => [acc.reverse]
  | c :: rest, acc =>
    if (c0 :: sepT).isPrefixOf (c :: rest) then
      acc.reverse :: pySplitGo c0 sepT (rest.drop sepT.length) []
    else
      pySplitGo c0 sepT rest (c :: acc)
termination_by s _ => s.length
decreasing_by
  all_goals simp only [List.length_drop, List.length_cons]
  all_goals omega

/-- Python `s.split(sep)` for nonempty `sep` (the code only ever splits on
`speaker + "_"` and on `"_synthesis"`, both nonempty). -/
def pySplit (sep s : List Char) : List (List Char) :=
  match sep with
  | [] => [s]
  | c :: t => pySplitGo c t s []

/-- The positions of `s` at which `sep` occurs (all occurrences,
overlapping ones included). -/
def occPositions (sep s : List Char) : List Nat :=
  (List.range (s.length + 1)).filter (fun i => sep.isPrefixOf (s.drop i))

/-- Python `sep in s`. -/
def containsSub (sep s : List Char) : Bool := !(occPositions sep s).isEmpty

def synthesisSep : List Char := "_synthesis".toList

def wavSuffix : List Char := ".wav".toList

/-- The heuristic as implemented: take the last field of
`F.split(speaker + "_")` when the separator occurs in `F` (`F` itself
otherwise), then the first field of a `"_synthesis"` split, then append
`".wav"`. -/
def deriveRefName (speaker F : List Char) : List Char :=
  (pySplit synthesisSep
    (if containsSub (speaker ++ ['_']) F then (pySplit (speaker ++ ['_']) F).getLastD []
     else F)).headD [] ++ wavSuffix

/-- Modelled from the claim's words: the text after the last occurrence of
`sep` in `s` — every occurrence counts, including overlapping ones — or `s`
when `sep` does not occur. -/
def afterLastOcc (sep s : List Char) : List Char :=
  match (occPositions sep s).getLast? with
  | some i => s.drop (i + sep.length)
  | none => s

/-- Modelled from the claim's words: the text before the first occurrence of
`sep` in `s`, or `s` when `sep` does not occur. -/
def beforeFirstOcc (sep s : List Char) : List Char :=
  match (occPositions sep s).head? with
  | some i => s.take i
  | none => s

/-- The mapping exactly as the claim words it: text after the last
occurrence of `"speaker_"` (`F` unchanged when absent), truncated before the
first occurrence of `"_synthesis"`, with `".wav"` appended. -/
def claimRefName (speaker F : List Char) : List Char :=
  beforeFirstOcc synthesisSep (afterLastOcc (speaker ++ ['_']) F) ++ wavSuffix

/-! ### Lemmas relating the split to occurrence positions -/

lemma occPositions_cons (sep : List Char) (c : Char) (rest : List Char) :
    occPositions sep (c :: rest) =
      (if sep.isPrefixOf (c :: rest) then [0] else []) ++
        (occPositions sep rest).map (· + 1) := by
  have hrange : List.range (rest.length + 2) =
      0 :: (List.range (rest.length + 1)).map (· + 1) := by
    rw [List.range_succ_eq_map]
  rw [occPositions, List.length_cons, hrange, List.filter_cons]
  have hmap : (List.filter (fun i => sep.isPrefixOf ((c :: rest).drop i))
        ((List.range (rest.length + 1)).map (· + 1))) =
      (occPositions sep rest).map (· + 1) := by
    rw [List.filter_map]
    rfl
  by_cases hp : sep.isPrefixOf (c :: rest)
  · simp only [List.drop_zero, hp, if_pos, hmap]
    rfl
  · simp only [List.drop_zero, hmap]
    rw [if_neg (by simpa using hp), if_neg (by simpa using hp)]
    rfl

lemma occPositions_eq_nil_of_not_contains (sep s : List Char)
    (h : containsSub sep s = false) : occPositions sep s = [] := by
  rw [containsSub, Bool.not_eq_false'] at h
  exact List.isEmpty_iff.mp h

lemma beforeFirstOcc_nil (sep : List Char) : beforeFirstOcc sep [] = [] := by
  rw [beforeFirstOcc]
  cases (occPositions sep []).head? <;> simp

lemma beforeFirstOcc_cons_pos (sep : List Char) (c : Char) (rest : List Char)
    (hp : sep.isPrefixOf (c :: rest)) : beforeFirstOcc sep (c :: rest) = [] := by
  rw [beforeFirstOcc, occPositions_cons, if_pos hp]
  rfl

lemma beforeFirstOcc_cons_neg (sep : List Char) (c : Char) (rest : List Char)
    (hp : ¬ sep.isPrefixOf (c :: rest)) :
    beforeFirstOcc sep (c :: rest) = c :: beforeFirstOcc sep rest := by
  rw [beforeFirstOcc, beforeFirstOcc, occPositions_cons, if_neg hp, List.nil_append]
  cases hl : occPositions sep rest with
  | nil => simp
  | cons a l => simp [List.take_succ_cons]

/-- The first field produced by the scanning split is exactly the text
before the first occurrence of the separator. -/
lemma pySplitGo_head (c0 : Char) (t : List Char) :
    ∀ (s acc : List Char),
      (pySplitGo c0 t s acc).headD [] = acc.reverse ++ beforeFirstOcc (c0 :: t) s := by
  intro s
  induction s with
  | nil =>
    intro acc
    rw [pySplitGo, beforeFirstOcc_nil]
    simp
  | cons c rest ih =>
    intro acc
    rw [pySplitGo]
    by_cases hp : (c0 :: t).isPrefixOf (c :: rest)
    · rw [if_pos hp, beforeFirstOcc_cons_pos _ _ _ hp]
      simp
    · rw [if_neg hp, beforeFirstOcc_cons_neg _ _ _ hp, ih]
      simp

/-- When the separator does not occur, the scanning split returns the single
field `acc.reverse ++ s`. -/
lemma pySplitGo_not_contains (c0 : Char) (t : List Char) :
    ∀ (s acc : List Char), containsSub (c0 :: t) s = false →
      pySplitGo c0 t s acc = [acc.reverse ++ s] := by
  intro s
  induction s with
  | nil =>
    intro acc _
    rw [pySplitGo]
    simp
  | cons c rest ih =>
    intro acc h
    have hocc := occPositions_eq_nil_of_not_contains _ _ h
    rw [occPositions_cons] at hocc
    have hp : ¬ (c0 :: t).isPrefixOf (c :: rest) := by
      intro hp
      rw [if_pos hp] at hocc
      simp at hocc
    have hrest : occPositions (c0 :: t) rest = [] := by
      rcases List.append_eq_nil.mp hocc with ⟨-, h2⟩
      exact List.map_eq_nil_iff.mp h2
    rw [pySplitGo, if_neg hp, ih]
    · simp
    · rw [containsSub, hrest]
      rfl

/-! ## Claim theorems for the reference-resolution heuristic -/

/-- C5 counterexample: for speaker `"a_a"` and probe filename
`"a_a_a_x_synthesis.wav"`, the separator `"a_a_"` occurs (overlapping) at
positions 0 and 2; the code's `split(sep)[-1]` consumes the occurrence at 0
and yields `"a_x_synthesis.wav"` → `"a_x.wav"`, while the claim's "text
after the last occurrence" rule yields `"x_synthesis.wav"` → `"x.wav"`. -/
theorem reference_heuristic_counterexample :
    deriveRefName ("a_a".toList) ("a_a_a_x_synthesis.wav".toList) = "a_x.wav".toList ∧
    claimRefName ("a_a".toList) ("a_a_a_x_synthesis.wav".toList) = "x.wav".toList ∧
    deriveRefName ("a_a".toList) ("a_a_a_x_synthesis.wav".toList) ≠
      claimRefName ("a_a".toList) ("a_a_a_x_synthesis.wav".toList) := by
  have hc : containsSub (("a_a".toList) ++ ['_']) ("a_a_a_x_synthesis.wav".toList) = true := by
    decide
  have h1 : deriveRefName ("a_a".toList) ("a_a_a_x_synthesis.wav".toList) = "a_x.wav".toList := by
    unfold deriveRefName
    rw [if_pos hc]
    simp [pySplit, pySplitGo, synthesisSep, wavSuffix]
  have h2 : claimRefName ("a_a".toList) ("a_a_a_x_synthesis.wav".toList) = "x.wav".toList := by
    decide
  refine ⟨h1, h2, ?_⟩
  rw [h1, h2]
  decide

/-- C5 amended: the heuristic maps probe filename `F` for speaker `S` to the
last field of the left-to-right non-overlapping split of `F` on `"S_"`
(which is the text after the last occurrence whenever occurrences do not
overlap, and is `F` itself when `"S_"` does not occur), truncated before the
first occurrence of `"_synthesis"`, with `".wav"` appended; in particular
`"spk1_utt001_synthesis.wav"` under speaker `"spk1"` resolves to
`"utt001.wav"`. -/
theorem reference_heuristic_amended :
    (∀ speaker F : List Char,
      deriveRefName speaker F =
        beforeFirstOcc synthesisSep ((pySplit (speaker ++ ['_']) F).getLastD []) ++
          wavSuffix) ∧
    deriveRefName ("spk1".toList) ("spk1_utt001_synthesis.wav".toList) = "utt001.wav".toList := by
  constructor
  · intro speaker F
    have hsyn : ∀ x : List Char, (pySplit synthesisSep x).headD [] =
        beforeFirstOcc synthesisSep x := by
      intro x
      have := pySplitGo_head '_' ("synthesis".toList) x []
      simpa [pySplit, synthesisSep] using this
    unfold deriveRefName
    by_cases hc : containsSub (speaker ++ ['_']) F = true
    · rw [if_pos hc, hsyn]
    · rw [if_neg hc]
      have hc' : containsSub (speaker ++ ['_']) F = false := by
        cases h : containsSub (speaker ++ ['_']) F
        · rfl
        · exact absurd h hc
      have hsplit : pySplit (speaker ++ ['_']) F = [F] := by
        cases hsp : speaker ++ ['_'] with
        | nil => exact absurd hsp (by simp)
        | cons c0 t =>
          rw [pySplit]
          have := pySplitGo_not_contains c0 t F [] (by rw [← hsp]; exact hc')
          simpa using this
      rw [hsplit, hsyn]
      simp
  · have hc : containsSub (("spk1".toList) ++ ['_']) ("spk1_utt001_synthesis.wav".toList) =
        true := by decide
    unfold deriveRefName
    rw [if_pos hc]
    simp [pySplit, pySplitGo, synthesisSep, wavSuffix]

/-! ## ScoreExtractor: `calculate_mos_for_directory`
(`audioprocessing/selection.py`, lines 36-123)

The function enumerates `sorted(glob(input_path/**/*.ext, recursive=True))`
and, per file, tries `get_audio_duration` and `model_instance.calculate_one`.
Note on line 88: the module does `from glob import glob` (line 3) yet calls
`glob.glob(...)`, which raises `AttributeError` on every call; the adjacent
comment — "Using sorted(glob(...)) for deterministic order" — and the
docstring document the evident intent, which this embedding models.

A file found by the enumeration is modelled by its path together with the
outcomes the two external calls would produce on it: `none` models a raised
exception, `some v` a returned value. -/

/-- A cell of the results table: a duration, a MOS value, or one of the
three sentinel strings written by the loop. -/
inductive Cell where
  | dur (n : ℕ)
  | mos (q : ℚ)
  | errDurationUnreadable
  | errNotCalculated
  | errCalculationFailed
deriving DecidableEq

structure FsEntry where
  path : List Char
  durationResult : Option ℕ
  mosResult : Option ℚ
deriving DecidableEq

/-- The per-file body of the loop (selection.py lines 95-113): if
`get_audio_duration` raises, record `["Error: Duration unreadable",
"Error: Not calculated"]` and `continue` — the scorer is not attempted;
otherwise record the duration, and if `calculate_one` raises record
`"Error: Calculation failed"` for the score. -/
def processFile (dres : Option ℕ) (mres : Option ℚ) : Cell × Cell :=
  match dres with
  | none => (Cell.errDurationUnreadable, Cell.errNotCalculated)
  | some n =>
    (Cell.dur n,
      match mres with
      | some q => Cell.mos q
      | none => Cell.errCalculationFailed)

/-- Lexicographic comparison of paths by character code point, the order
Python's `sorted` uses on strings. -/
def charListLe : List Char → List Char → Bool
  | [], _ => true
  | _ :: _, [] => false
  | a :: as, b :: bs =>
    if a.toNat < b.toNat then true
    else if b.toNat < a.toNat then false
    else charListLe as bs

def entryLE (a b : FsEntry) : Prop := charListLe a.path b.path = true

instance entryLE.instDecidableRel : DecidableRel entryLE :=
  fun a b => inferInstanceAs (Decidable (charListLe a.path b.path = true))

/-- `sorted(glob(...))`: the enumerated files in lexicographic path order. -/
def sortEntries (entries : List FsEntry) : List FsEntry :=
  List.insertionSort entryLE entries

/-- `ScoreExtractor.extract` on an enumerated corpus: one output row per
file, in sorted path order, holding the path and the two cells the loop
records. -/
def extractTable (entries : List FsEntry) : List (List Char × Cell × Cell) :=
  (sortEntries entries).map (fun e => (e.path, processFile e.durationResult e.mosResult))

/-! ### Order lemmas for the path comparison -/

lemma charListLe_total : ∀ a b : List Char, charListLe a b = true ∨ charListLe b a = true := by
  intro a
  induction a with
  | nil => intro b; left; rfl
  | cons x xs ih =>
    intro b
    cases b with
    | nil => right; rfl
    | cons y ys =>
      by_cases hxy : x.toNat < y.toNat
      · left; simp [charListLe, hxy]
      · by_cases hyx : y.toNat < x.toNat
        · right; simp [charListLe, hyx]
        · rcases ih ys with h | h
          · left; simp [charListLe, hxy, hyx, h]
          · right; simp [charListLe, hxy, hyx, h]

lemma charListLe_trans : ∀ a b c : List Char,
    charListLe a b = true → charListLe b c = true → charListLe a c = true := by
  intro a
  induction a with
  | nil => intro b c _ _; rfl
  | cons x xs ih =>
    intro b c hab hbc
    cases b with
    | nil => simp [charListLe] at hab
    | cons y ys =>
      cases c with
      | nil => simp [charListLe] at hbc
      | cons z zs =>
        simp only [charListLe] at hab hbc ⊢
        by_cases hxy : x.toNat < y.toNat
        · by_cases hyz : y.toNat < z.toNat
          · have hxz : x.toNat < z.toNat := Nat.lt_trans hxy hyz
            simp [hxz]
          · by_cases hzy : z.toNat < y.toNat
            · simp [hyz, hzy] at hbc
            · have hyzeq : y.toNat = z.toNat := Nat.le_antisymm
                (Nat.not_lt.mp hzy) (Nat.not_lt.mp hyz)
              have hxz : x.toNat < z.toNat := hyzeq ▸ hxy
              simp [hxz]
        · by_cases hyx : y.toNat < x.toNat
          · simp [hxy, hyx] at hab
          · have hxyeq : x.toNat = y.toNat :=
              Nat.le_antisymm (Nat.not_lt.mp hyx) (Nat.not_lt.mp hxy)
            by_cases hyz : y.toNat < z.toNat
            · have hxz : x.toNat < z.toNat := hxyeq ▸ hyz
              simp [hxz]
            · by_cases hzy : z.toNat < y.toNat
              · simp [hyz, hzy] at hbc
              · have hyzeq : y.toNat = z.toNat :=
                  Nat.le_antisymm (Nat.not_lt.mp hzy) (Nat.not_lt.mp hyz)
                have hxz : ¬ x.toNat < z.toNat := by omega
                have hzx : ¬ z.toNat < x.toNat := by omega
                simp only [hxy, hyx, if_false] at hab
                simp only [hyz, hzy, if_false] at hbc
                simp [hxz, hzx, ih ys zs hab hbc]

lemma charListLe_antisymm : ∀ a b : List Char,
    charListLe a b = true → charListLe b a = true → a = b := by
  intro a
  induction a with
  | nil =>
    intro b _ hba
    cases b with
    | nil => rfl
    | cons y ys => simp [charListLe] at hba
  | cons x xs ih =>
    intro b hab hba
    cases b with
    | nil => simp [charListLe] at hab
    | cons y ys =>
      simp only [charListLe] at hab hba
      by_cases hxy : x.toNat < y.toNat
      · have hyx : ¬ y.toNat < x.toNat := by omega
        simp [hxy, hyx] at hba
      · by_cases hyx : y.toNat < x.toNat
        · simp [hxy, hyx] at hab
        · have hxyeq : x.toNat = y.toNat :=
            Nat.le_antisymm (Nat.not_lt.mp hyx) (Nat.not_lt.mp hxy)
          have hc : x = y := Char.eq_of_val_eq (UInt32.ext hxyeq)
          simp only [hxy, hyx, if_false] at hab hba
          rw [hc, ih ys hab hba]

lemma entryLE_total : ∀ a b : FsEntry, entryLE a b ∨ entryLE b a := by
  intro a b
  exact charListLe_total a.path b.path

lemma entryLE_trans : ∀ a b c : FsEntry, entryLE a b → entryLE b c → entryLE a c := by
  intro a b c hab hbc
  exact charListLe_trans a.path b.path c.path hab hbc

/-- Two sorted lists of entries with pairwise-distinct paths that are
permutations of each other are equal: sorting normalizes away the
enumeration order of the file system. -/
lemma sorted_perm_paths_nodup_eq :
    ∀ l₁ l₂ : List FsEntry, l₁.Perm l₂ → l₁.Pairwise entryLE → l₂.Pairwise entryLE →
      (l₁.map FsEntry.path).Nodup → l₁ = l₂ := by
  intro l₁
  induction l₁ with
  | nil =>
    intro l₂ hp _ _ _
    rw [hp.symm.eq_nil]
  | cons a t₁ ih =>
    intro l₂ hp hs₁ hs₂ hnd
    cases l₂ with
    | nil => exact absurd hp.eq_nil (by simp)
    | cons b t₂ =>
      have hnd' : a.path ∉ List.map FsEntry.path t₁ ∧ (List.map FsEntry.path t₁).Nodup := by
        rw [List.map_cons, List.nodup_cons] at hnd
        exact hnd
      have hab : a = b := by
        by_contra hne
        have hbmem : b ∈ a :: t₁ := hp.mem_iff.mpr (List.mem_cons_self b t₂)
        have hamem : a ∈ b :: t₂ := hp.mem_iff.mp (List.mem_cons_self a t₁)
        have hbt₁ : b ∈ t₁ := by
          rcases List.mem_cons.mp hbmem with h | h
          · exact absurd h.symm hne
          · exact h
        have hat₂ : a ∈ t₂ := by
          rcases List.mem_cons.mp hamem with h | h
          · exact absurd h hne
          · exact h
        have h₁ : entryLE a b := (List.pairwise_cons.mp hs₁).1 b hbt₁
        have h₂ : entryLE b a := (List.pairwise_cons.mp hs₂).1 a hat₂
        have hpath : a.path = b.path := charListLe_antisymm _ _ h₁ h₂
        exact hnd'.1 (hpath ▸ List.mem_map_of_mem FsEntry.path hbt₁)
      subst hab
      have hperm' : t₁.Perm t₂ := hp.cons_inv
      have := ih t₂ hperm' (List.pairwise_cons.mp hs₁).2 (List.pairwise_cons.mp hs₂).2 hnd'.2
      rw [this]

/-! ## Claim theorems for ScoreExtractor -/

/-- C9: the table produced by the extraction pipeline does not depend on the
order in which the file system hands back the enumerated files (paths are
distinct): `sorted(...)` normalizes any two enumerations of an unchanged
corpus to the same processing order, and every later step is a pure function
of it, so two runs yield identical output tables.  (As written, line 88 of
selection.py raises `AttributeError` — `glob.glob` where `glob` is the
function imported on line 3 — so the literal code produces no table at all;
this theorem establishes the claim for the evidently intended
`sorted(glob(...))` the in-code comment and docstring describe.) -/
theorem extract_deterministic_in_enumeration_order
    (e₁ e₂ : List FsEntry) (hperm : e₁.Perm e₂)
    (hnd : (e₁.map FsEntry.path).Nodup) :
    extractTable e₁ = extractTable e₂ := by
  haveI : IsTotal FsEntry entryLE := ⟨entryLE_total⟩
  haveI : IsTrans FsEntry entryLE := ⟨entryLE_trans⟩
  have hsorteq : sortEntries e₁ = sortEntries e₂ := by
    apply sorted_perm_paths_nodup_eq
    · exact (List.perm_insertionSort entryLE e₁).trans
        (hperm.trans (List.perm_insertionSort entryLE e₂).symm)
    · exact List.sorted_insertionSort entryLE e₁
    · exact List.sorted_insertionSort entryLE e₂
    · exact (((List.perm_insertionSort entryLE e₁).map FsEntry.path).nodup_iff).mpr hnd
  rw [extractTable, extractTable, hsorteq]

theorem extract_deterministic_in_enumeration_order_witness :
    List.Perm
      [FsEntry.mk ("b.wav".toList) (some 2000) (some 4),
        FsEntry.mk ("a.wav".toList) none (some 3)]
      [FsEntry.mk ("a.wav".toList) none (some 3),
        FsEntry.mk ("b.wav".toList) (some 2000) (some 4)] ∧
    (([FsEntry.mk ("b.wav".toList) (some 2000) (some 4),
        FsEntry.mk ("a.wav".toList) none (some 3)]).map FsEntry.path).Nodup ∧
    extractTable
        [FsEntry.mk ("b.wav".toList) (some 2000) (some 4),
          FsEntry.mk ("a.wav".toList) none (some 3)] =
      extractTable
        [FsEntry.mk ("a.wav".toList) none (some 3),
          FsEntry.mk ("b.wav".toList) (some 2000) (some 4)] :=
  ⟨by decide, by decide,
    extract_deterministic_in_enumeration_order _ _ (by decide) (by decide)⟩

/-- C8 counterexample: on a file whose duration read fails while its score
computation would succeed (returning 4), the loop records the
`"Error: Not calculated"` sentinel in the score field instead of the score —
the `continue` on duration failure short-circuits scoring, so the two
failures are not independent of each other. -/
theorem extract_failures_not_independent_counterexample :
    (processFile none (some 4)).2 = Cell.errNotCalculated ∧
    (processFile (some 5) (some 4)).2 = Cell.mos 4 ∧
    Cell.errNotCalculated ≠ Cell.mos 4 :=
  ⟨rfl, rfl, by decide⟩

/-- Is a results-table cell a successfully computed score? -/
def isMosCell : Cell → Bool
  | Cell.mos _ => true
  | _ => false

/-- Is a row the double-sentinel row recorded for a duration-unreadable
file? -/
def isSentinelRow : List Char × Cell × Cell → Bool
  | (_, Cell.errDurationUnreadable, Cell.errNotCalculated) => true
  | _ => false

/-- A ten-file corpus in which exactly one file (f3) is corrupted: its
duration read raises; every other file yields a duration and a score. -/
def tenFiles : List FsEntry :=
  [FsEntry.mk ("f0.wav".toList) (some 1000) (some 4),
    FsEntry.mk ("f1.wav".toList) (some 1100) (some 4),
    FsEntry.mk ("f2.wav".toList) (some 1200) (some 4),
    FsEntry.mk ("f3.wav".toList) none (some 4),
    FsEntry.mk ("f4.wav".toList) (some 1400) (some 4),
    FsEntry.mk ("f5.wav".toList) (some 1500) (some 4),
    FsEntry.mk ("f6.wav".toList) (some 1600) (some 4),
    FsEntry.mk ("f7.wav".toList) (some 1700) (some 4),
    FsEntry.mk ("f8.wav".toList) (some 1800) (some 4),
    FsEntry.mk ("f9.wav".toList) (some 1900) (some 4)]

/-- C8 amended: every enumerated file yields exactly one row and no per-file
failure aborts the batch; a score-computation failure is recorded as the
`"Error: Calculation failed"` sentinel independently of the duration; but a
duration-read failure short-circuits scoring — it records
`"Error: Duration unreadable"` for the duration and `"Error: Not
calculated"` for the score without attempting the scorer.  A corpus of ten
files with one duration-unreadable file yields a 10-row table with 9 valid
scores and 1 sentinel row. -/
theorem extract_one_row_per_file_amended :
    (∀ entries : List FsEntry, (extractTable entries).length = entries.length) ∧
    (∀ (n : ℕ) (q : ℚ), processFile (some n) (some q) = (Cell.dur n, Cell.mos q)) ∧
    (∀ n : ℕ, processFile (some n) none = (Cell.dur n, Cell.errCalculationFailed)) ∧
    (∀ m : Option ℚ, processFile none m = (Cell.errDurationUnreadable, Cell.errNotCalculated)) ∧
    (extractTable tenFiles).length = 10 ∧
    (extractTable tenFiles).countP (fun r => isMosCell r.2.2) = 9 ∧
    (extractTable tenFiles).countP isSentinelRow = 1 := by
  refine ⟨?_, fun n q => rfl, fun n => rfl, fun m => rfl, by decide, by decide, by decide⟩
  intro entries
  simp [extractTable, sortEntries, List.length_insertionSort]

end AudioProc
